import Mathlib

/-!
Verification of the `archive-github-org` backup tool (`main.go`) against its
natural-language specification.

The development shallowly embeds the program: the paginated lister
(`fetchReposData`), the zip packager (`fillZipWriter`), the clone worker
pool (`cloneRepos`) as a labelled transition system, the wait-group join
barrier of `main`, and the packaging epilogue of `main` as an event trace.
All definitions are translated from `main.go`; network responses, the
filesystem tree and goroutine scheduling are the nondeterministic inputs.
-/

namespace ArchiveOrg

/-- Constant from `main.go`: number of clone workers. -/
def cloningWorkers : Nat := 5

/-- Constant from `main.go`: hard maximum number of listing pages. -/
def maxPages : Nat := 10

/-- Constant from `main.go`: listing page size (`per_page` query parameter). -/
def perPage : Nat := 100

/-- One decoded repository object from the listing API.  `main.go` reads the
fields `Name` and `CloneUrl`; any further fields are carried opaquely and do
not influence control flow, so they are not modelled. -/
structure MinimalRepository where
  name : String
  cloneUrl : String
  deriving DecidableEq

/-- A Go `error` value (non-nil).  `github.com/pkg/errors` wrapping is kept
so that wrapped causes stay distinguishable. -/
inductive GoError where
  | base (msg : String)
  | wrapped (msg : String) (cause : GoError)
  deriving DecidableEq

/-- `github.com/pkg/errors.Wrap` over Go's nilable `error` (modelled as
`Option GoError`): per its documentation, `Wrap` returns nil when the
wrapped error is nil. -/
def errorsWrap (err : Option GoError) (msg : String) : Option GoError :=
  match err with
  | none => none
  | some e => some (GoError.wrapped msg e)

/-- The observable part of one HTTP response in `fetchReposData`: the status
code and the outcome of JSON-decoding the body into `[]*MinimalRepository`. -/
structure HttpResponse where
  statusCode : Nat
  body : Except GoError (List MinimalRepository)

/-- The result of `fetchReposData`: the returned slice (nil vs non-nil kept,
as `Option`), the returned error, and the number of HTTP requests actually
issued (`client.Do` calls), used to state the pagination bounds. -/
structure FetchResult where
  repos : Option (List MinimalRepository)
  err : Option GoError
  requests : Nat
  deriving DecidableEq

/-- Loop body of `fetchReposData` (`for i := 1; i <= maxPages; i++`), with
`fuel` the number of remaining iterations (`maxPages - i + 1`).  Inputs:
`ctxDone i` tells whether `ctx.Done()` is already closed when iteration `i`
runs its `select`; `net i` is the transport/decode outcome of the page-`i`
request.  Note that in the `ctx.Done()` branch the source wraps the OUTER
`err` variable — which is still the nil result of the `http.NewRequest`
guard, because every `err` inside the loop body is a new short-variable
declaration that shadows it — hence `errorsWrap none`. -/
def fetchLoopAux (ctxDone : Nat → Bool) (net : Nat → Except GoError HttpResponse) :
    Nat → Nat → List MinimalRepository → Nat → FetchResult
  | 0, _, repos, reqs => ⟨some repos, none, reqs⟩
  | fuel + 1, i, repos, reqs =>
    if ctxDone i then
      ⟨none, errorsWrap none "context finished", reqs⟩
    else
      match net i with
      | Except.error e => ⟨none, errorsWrap (some e) "could not do the request", reqs + 1⟩
      | Except.ok resp =>
        if resp.statusCode ≠ 200 then
          ⟨none, some (GoError.base "received invalid response code"), reqs + 1⟩
        else
          match resp.body with
          | Except.error e => ⟨none, errorsWrap (some e) "could not decode response", reqs + 1⟩
          | Except.ok page =>
            if page.length < perPage then
              ⟨some (repos ++ page), none, reqs + 1⟩
            else
              fetchLoopAux ctxDone net fuel (i + 1) (repos ++ page) (reqs + 1)

/-- `fetchReposData` from `main.go`: iterate pages `1..maxPages`, starting
from the empty accumulator (`repos := []*MinimalRepository{}`). -/
def fetchReposData (ctxDone : Nat → Bool) (net : Nat → Except GoError HttpResponse) :
    FetchResult :=
  fetchLoopAux ctxDone net maxPages 1 [] 0

/-- A network oracle where every page request succeeds with status 200 and
decodes to `pages i`. -/
def pureNet (pages : Nat → List MinimalRepository) : Nat → Except GoError HttpResponse :=
  fun i => Except.ok ⟨200, Except.ok (pages i)⟩

/-- A run whose shared deadline never fires during listing. -/
def noCancel : Nat → Bool := fun _ => false

/-- Number of pages the loop fetches starting at page `i` with `fuel`
iterations left, when no request fails and the deadline never fires. -/
def pagesFetchedFrom (pages : Nat → List MinimalRepository) : Nat → Nat → Nat
  | 0, _ => 0
  | fuel + 1, i =>
    if (pages i).length < perPage then 1
    else pagesFetchedFrom pages fuel (i + 1) + 1

/-- Concatenation of `k` consecutive pages starting at page `i`. -/
def concatPages (pages : Nat → List MinimalRepository) : Nat → Nat → List MinimalRepository
  | _, 0 => []
  | i, k + 1 => pages i ++ concatPages pages (i + 1) k

theorem fetchLoopAux_pureNet (pages : Nat → List MinimalRepository)
    (fuel : Nat) : ∀ (i : Nat) (repos : List MinimalRepository) (reqs : Nat),
    fetchLoopAux noCancel (pureNet pages) fuel i repos reqs =
      ⟨some (repos ++ concatPages pages i (pagesFetchedFrom pages fuel i)), none,
        reqs + pagesFetchedFrom pages fuel i⟩ := by
  induction fuel with
  | zero =>
    intro i repos reqs
    simp [fetchLoopAux, pagesFetchedFrom, concatPages]
  | succ fuel ih =>
    intro i repos reqs
    by_cases h : (pages i).length < perPage
    · simp [fetchLoopAux, noCancel, pureNet, pagesFetchedFrom, concatPages, h]
    · simp only [fetchLoopAux, noCancel, pureNet, Bool.false_eq_true, if_false,
        ne_eq, not_true_eq_false, if_neg, h, if_false, pagesFetchedFrom]
      rw [ih (i + 1) (repos ++ pages i) (reqs + 1)]
      simp [concatPages, pagesFetchedFrom, h, List.append_assoc]
      omega

theorem pagesFetchedFrom_le (pages : Nat → List MinimalRepository) (fuel : Nat) :
    ∀ i, pagesFetchedFrom pages fuel i ≤ fuel := by
  induction fuel with
  | zero => intro i; simp [pagesFetchedFrom]
  | succ fuel ih =>
    intro i
    by_cases h : (pages i).length < perPage
    · simp [pagesFetchedFrom, h]
    · simp only [pagesFetchedFrom, if_neg h]
      have := ih (i + 1)
      omega

theorem pagesFetchedFrom_full (pages : Nat → List MinimalRepository) (fuel : Nat) :
    ∀ i d, d + 1 < pagesFetchedFrom pages fuel i → perPage ≤ (pages (i + d)).length := by
  induction fuel with
  | zero => intro i d h; simp [pagesFetchedFrom] at h
  | succ fuel ih =>
    intro i d h
    by_cases hs : (pages i).length < perPage
    · simp [pagesFetchedFrom, hs] at h
    · simp only [pagesFetchedFrom, if_neg hs] at h
      cases d with
      | zero => simpa using Nat.le_of_not_lt hs
      | succ d =>
        have : i + (d + 1) = (i + 1) + d := by omega
        rw [this]
        exact ih (i + 1) d (by omega)

theorem pagesFetchedFrom_stopped_short (pages : Nat → List MinimalRepository) (fuel : Nat) :
    ∀ i, pagesFetchedFrom pages fuel i < fuel →
      ∃ j, pagesFetchedFrom pages fuel i = j + 1 ∧ (pages (i + j)).length < perPage := by
  induction fuel with
  | zero => intro i h; omega
  | succ fuel ih =>
    intro i h
    by_cases hs : (pages i).length < perPage
    · exact ⟨0, by simp [pagesFetchedFrom, hs], by simpa using hs⟩
    · simp only [pagesFetchedFrom, if_neg hs] at h ⊢
      obtain ⟨j, hj, hshort⟩ := ih (i + 1) (by omega)
      refine ⟨j + 1, by omega, ?_⟩
      have : i + (j + 1) = (i + 1) + j := by omega
      rw [this]
      exact hshort

theorem pagesFetchedFrom_all_full (pages : Nat → List MinimalRepository) (fuel : Nat) :
    ∀ i, (∀ d, d < fuel → (pages (i + d)).length = perPage) →
      pagesFetchedFrom pages fuel i = fuel := by
  induction fuel with
  | zero => intro i _; simp [pagesFetchedFrom]
  | succ fuel ih =>
    intro i h
    have h0 : (pages i).length = perPage := by simpa using h 0 (by omega)
    have hs : ¬ (pages i).length < perPage := by omega
    simp only [pagesFetchedFrom, if_neg hs]
    have : pagesFetchedFrom pages fuel (i + 1) = fuel := by
      apply ih
      intro d hd
      have : (i + 1) + d = i + (d + 1) := by omega
      rw [this]
      exact h (d + 1) (by omega)
    omega

theorem concatPages_length (pages : Nat → List MinimalRepository) (k : Nat) :
    ∀ i, (∀ d, d < k → (pages (i + d)).length = perPage) →
      (concatPages pages i k).length = k * perPage := by
  induction k with
  | zero => intro i _; simp [concatPages]
  | succ k ih =>
    intro i h
    have h0 : (pages i).length = perPage := by simpa using h 0 (by omega)
    have hrest : (concatPages pages (i + 1) k).length = k * perPage := by
      apply ih
      intro d hd
      have : (i + 1) + d = i + (d + 1) := by omega
      rw [this]
      exact h (d + 1) (by omega)
    simp [concatPages, h0, hrest]
    ring

/-- Two-page listing fixture: 100 repositories on page 1 and 50 on page 2
(the spec's 150-repositories example). -/
def pages150 : Nat → List MinimalRepository := fun i =>
  if i = 1 then List.replicate 100 ⟨"r", "u"⟩
  else if i = 2 then List.replicate 50 ⟨"r", "u"⟩
  else []

/-- Fixture in which every page is full-sized. -/
def pagesAllFull : Nat → List MinimalRepository := fun _ =>
  List.replicate 100 ⟨"r", "u"⟩

/-- C2: the claim says that when the shared deadline fires before a page
request starts, `fetchReposData` returns a non-nil context/deadline error.
The code instead returns a NIL error: the `ctx.Done()` branch wraps the
outer `err`, which is still nil (every inner `err` is a fresh short-variable
declaration), and `errors.Wrap(nil, ...)` is nil.  Evaluated at the failing
input (deadline already expired before the first iteration), the function
issues no request and returns nil repositories AND a nil error. -/
theorem fetch_cancelled_returns_nil_error :
    fetchReposData (fun _ => true) (fun _ => Except.ok ⟨200, Except.ok []⟩) =
      ⟨none, none, 0⟩ :=
  rfl

/-- C6: with no transport, status or decode failure and no cancellation, the
lister issues at most `maxPages` requests, returns exactly the concatenation
of the fetched pages, every fetched page except the last is full-sized
(it never fetches past a short page), and whenever it stops before the
`maxPages` bound the last fetched page was strictly shorter than `perPage`
(it stops at the first short page and needs no explicitly empty page). -/
theorem lister_stops_at_short_page (pages : Nat → List MinimalRepository) :
    (fetchReposData noCancel (pureNet pages)).err = none ∧
    (fetchReposData noCancel (pureNet pages)).requests ≤ maxPages ∧
    (fetchReposData noCancel (pureNet pages)).repos =
      some (concatPages pages 1 (fetchReposData noCancel (pureNet pages)).requests) ∧
    (∀ d, d + 1 < (fetchReposData noCancel (pureNet pages)).requests →
      perPage ≤ (pages (1 + d)).length) ∧
    ((fetchReposData noCancel (pureNet pages)).requests < maxPages →
      ∃ j, (fetchReposData noCancel (pureNet pages)).requests = j + 1 ∧
        (pages (1 + j)).length < perPage) := by
  have hchar := fetchLoopAux_pureNet pages maxPages 1 [] 0
  have hreq : (fetchReposData noCancel (pureNet pages)).requests =
      pagesFetchedFrom pages maxPages 1 := by
    simp [fetchReposData, hchar]
  refine ⟨?_, ?_, ?_, ?_, ?_⟩
  · simp [fetchReposData, hchar]
  · rw [hreq]; exact pagesFetchedFrom_le pages maxPages 1
  · rw [hreq]; simp [fetchReposData, hchar]
  · intro d hd
    rw [hreq] at hd
    exact pagesFetchedFrom_full pages maxPages 1 d hd
  · intro hlt
    rw [hreq] at hlt ⊢
    exact pagesFetchedFrom_stopped_short pages maxPages 1 hlt

set_option maxRecDepth 10000 in
/-- Witness for C6 at the spec's concrete scenario: 150 repositories across
pages of 100 and 50 yield exactly 2 page requests, the returned slice is the
concatenation of the two pages (150 descriptors), and the early stop came
from the short second page. -/
theorem lister_stops_at_short_page_witness :
    (fetchReposData noCancel (pureNet pages150)).requests = 2 ∧
    (fetchReposData noCancel (pureNet pages150)).repos = some (concatPages pages150 1 2) ∧
    (concatPages pages150 1 2).length = 150 ∧
    (∃ j, (fetchReposData noCancel (pureNet pages150)).requests = j + 1 ∧
      (pages150 (1 + j)).length < perPage) := by
  have hreq : (fetchReposData noCancel (pureNet pages150)).requests = 2 := by decide
  have h := lister_stops_at_short_page pages150
  refine ⟨hreq, ?_, by decide, ?_⟩
  · have h3 := h.2.2.1
    rw [hreq] at h3
    exact h3
  · exact h.2.2.2.2 (by rw [hreq]; decide)

/-- C10: when all `maxPages` pages are full-sized, `fetchReposData` returns
exactly `maxPages * perPage` descriptors with a nil error after issuing
exactly `maxPages` requests — the pagination safety bound truncates the
listing silently, indistinguishable from a complete successful listing. -/
theorem lister_full_pages_silent_truncation (pages : Nat → List MinimalRepository)
    (h : ∀ i, 1 ≤ i → i ≤ maxPages → (pages i).length = perPage) :
    fetchReposData noCancel (pureNet pages) =
      ⟨some (concatPages pages 1 maxPages), none, maxPages⟩ ∧
    (concatPages pages 1 maxPages).length = maxPages * perPage := by
  have hfull : ∀ d, d < maxPages → (pages (1 + d)).length = perPage := by
    intro d hd
    exact h (1 + d) (by omega) (by omega)
  have hk : pagesFetchedFrom pages maxPages 1 = maxPages :=
    pagesFetchedFrom_all_full pages maxPages 1 hfull
  have hchar := fetchLoopAux_pureNet pages maxPages 1 [] 0
  constructor
  · rw [fetchReposData, hchar, hk]
    simp
  · exact concatPages_length pages maxPages 1 hfull

/-- Witness for C10: with every page answering a full 100 descriptors, the
run returns 10 * 100 = 1000 descriptors and a nil error. -/
theorem lister_full_pages_silent_truncation_witness :
    fetchReposData noCancel (pureNet pagesAllFull) =
      ⟨some (concatPages pagesAllFull 1 maxPages), none, maxPages⟩ ∧
    (concatPages pagesAllFull 1 maxPages).length = 1000 := by
  have h := lister_full_pages_silent_truncation pagesAllFull
    (fun i _ _ => by simp [pagesAllFull, perPage])
  exact ⟨h.1, by rw [h.2]; decide⟩

/-- Kind of one filesystem node visited by `filepath.WalkDir`: a directory,
a regular file (with its permission bits and raw content), or a symbolic
link (with its link-target string, as returned by `os.Readlink`). -/
inductive FsKind where
  | dir
  | file (perm : Nat) (content : String)
  | symlink (target : String)
  deriving DecidableEq

/-- One node of the working-directory tree as `WalkDir` presents it: the
full walk path (starting with the root directory name, `/`-separated on the
host this program targets) together with its kind. -/
structure FsEntry where
  path : String
  kind : FsKind
  deriving DecidableEq

/-- Mode recorded in a zip entry header: either the source file's regular
mode bits (`zip.FileInfoHeader`) or the symlink marker (`SetMode(os.ModeSymlink)`). -/
inductive EntryMode where
  | regular (perm : Nat)
  | symlinkMode
  deriving DecidableEq

/-- One entry written into the zip archive: its declared header name, its
mode, and the bytes written as its payload. -/
structure ArchiveEntry where
  name : String
  mode : EntryMode
  payload : String
  deriving DecidableEq

/-- `filepath.Rel(base, p)` for the inputs `fillZipWriter` produces: every
walked path below the root is `base ++ "/" ++ rest`, and `Rel` strips that
prefixed base, returning `rest`. -/
def filepathRel (base p : String) : String :=
  if (base ++ "/").toList.isPrefixOf p.toList then
    String.mk (p.toList.drop (base ++ "/").toList.length)
  else p

/-- The archive entry (if any) produced by one `WalkDir` callback invocation
in `fillZipWriter`: directories are skipped; a symlink yields an entry whose
header name is the FULL walk path (the source sets `Name: path` without
`filepath.Rel`), symlink mode, and the link-target string as payload (the
link is not followed); a regular file yields an entry named by
`filepath.Rel(dirFilename, path)` with the file's mode and contents. -/
def zipEntryOf (dirFilename : String) (e : FsEntry) : Option ArchiveEntry :=
  match e.kind with
  | FsKind.dir => none
  | FsKind.symlink target => some ⟨e.path, EntryMode.symlinkMode, target⟩
  | FsKind.file perm content =>
    some ⟨filepathRel dirFilename e.path, EntryMode.regular perm, content⟩

/-- `fillZipWriter` over an in-memory walk of the (quiescent) working
directory: the list of entries written to the zip writer, in walk order.
The walk list is the deterministic `WalkDir` traversal of the tree; the
I/O error paths of the source (walk error, `Readlink`, `Open`, `io.Copy`)
cannot fire on an in-memory tree and abort the whole walk when they do,
so the produced-entries function is total here. -/
def fillZipWriter (dirFilename : String) (walk : List FsEntry) : List ArchiveEntry :=
  walk.filterMap (zipEntryOf dirFilename)

/-- C9: every symlink present in the walked working directory yields an
archive entry carrying the symlink mode marker whose payload is exactly the
original link-target string — the link is not followed and no target-file
contents are stored for it. -/
theorem symlink_roundtrip (dirFilename : String) (walk : List FsEntry)
    (p target : String) (hmem : FsEntry.mk p (FsKind.symlink target) ∈ walk) :
    ∃ entry ∈ fillZipWriter dirFilename walk,
      entry.mode = EntryMode.symlinkMode ∧ entry.payload = target := by
  refine ⟨⟨p, EntryMode.symlinkMode, target⟩, ?_, rfl, rfl⟩
  rw [fillZipWriter, List.mem_filterMap]
  exact ⟨⟨p, FsKind.symlink target⟩, hmem, rfl⟩

/-- Witness for C9: a concrete tree with one symlink `d/link -> tgt` yields
an archive entry with the symlink marker and payload `tgt`. -/
theorem symlink_roundtrip_witness :
    ∃ entry ∈ fillZipWriter "d"
        [⟨"d/a.txt", FsKind.file 420 "hello"⟩, ⟨"d/link", FsKind.symlink "tgt"⟩],
      entry.mode = EntryMode.symlinkMode ∧ entry.payload = "tgt" :=
  symlink_roundtrip "d"
    [⟨"d/a.txt", FsKind.file 420 "hello"⟩, ⟨"d/link", FsKind.symlink "tgt"⟩]
    "d/link" "tgt" (by decide)

/-- C3: the claim says every entry's declared path — regular file or symlink
alike — is the path relative to the working-directory root, never retaining
the working-directory prefix.  The code violates this for symlinks: the
symlink branch sets the header name to the full walk path without calling
`filepath.Rel`.  At the failing input (root `d` containing the regular file
`d/a.txt` and the symlink `d/link -> tgt`), the regular file is archived
under the relative name `a.txt` but the symlink is archived under `d/link`,
retaining the working-directory prefix, although its relative path would be
`link`. -/
theorem symlink_entry_keeps_workdir_prefixed_name :
    fillZipWriter "d"
        [⟨"d/a.txt", FsKind.file 420 "hello"⟩, ⟨"d/link", FsKind.symlink "tgt"⟩] =
      [⟨"a.txt", EntryMode.regular 420, "hello"⟩,
       ⟨"d/link", EntryMode.symlinkMode, "tgt"⟩] ∧
    filepathRel "d" "d/link" = "link" ∧ "d/link" ≠ "link" := by
  refine ⟨?_, ?_, ?_⟩ <;> decide

/-- Control state of one clone worker goroutine in `cloneRepos`: blocked in
its `select` (waiting), running `git.PlainCloneContext` on a URL (cloning),
or returned (exited, via the `ctx.Done()` or closed-channel case). -/
inductive WorkerState where
  | waiting
  | cloning (url : String)
  | exited
  deriving DecidableEq

/-- Global state of `cloneRepos`: `next` is the producer's index into
`reposData` (the next URL to send on the unbuffered `work` channel);
`closed` records `close(work)`; `workers` the worker goroutines' states;
`ctxDone` whether the shared deadline has fired; `dispatched` the URLs
handed to workers so far, in send order; `cloneErrors` the URLs whose clone
attempt failed, in logging order (the `error cloning <url>` lines). -/
structure PoolState where
  next : Nat
  closed : Bool
  workers : List WorkerState
  ctxDone : Bool
  dispatched : List String
  cloneErrors : List String
  deriving DecidableEq

/-- URL at index `i` of the listing (total lookup; out-of-range is never
used by guarded steps). -/
def urlAt (urls : List String) (i : Nat) : String := urls.getD i ""

/-- Scheduler events of `cloneRepos`. -/
inductive PoolLabel where
  | dispatch (w : Nat)
  | finish (w : Nat) (err : Option String)
  | cancel
  | exitCtx (w : Nat)
  | closeChan
  | exitClosed (w : Nat)
  deriving DecidableEq

/-- Small-step semantics of `cloneRepos`, parameterised by the listing's
clone URLs.
* `dispatch w`: rendezvous on the unbuffered `work` channel — the producer's
  `work <- repo.CloneUrl` (which has no `ctx.Done()` case) meets worker `w`'s
  `select` receiving the item, and the worker immediately calls
  `git.PlainCloneContext` on it; possible whenever the worker is waiting,
  the channel is not closed and items remain (also after the deadline: a
  `select` with both cases ready may take either branch).
* `finish w err`: the worker's clone call returns; on a non-nil error the
  worker logs the offending URL and in either case loops back to `select`.
* `cancel`: the shared `programTimeout` deadline fires.
* `exitCtx w`: a waiting worker takes the `ctx.Done()` branch and returns.
* `closeChan`: the producer, having sent every URL, runs `close(work)`.
* `exitClosed w`: a waiting worker receives `ok = false` and returns. -/
inductive PoolStep (urls : List String) : PoolLabel → PoolState → PoolState → Prop where
  | dispatch (s : PoolState) (w : Nat)
      (hw : s.workers.get? w = some WorkerState.waiting)
      (hc : s.closed = false) (hn : s.next < urls.length) :
      PoolStep urls (PoolLabel.dispatch w) s
        ⟨s.next + 1, s.closed, s.workers.set w (WorkerState.cloning (urlAt urls s.next)),
          s.ctxDone, s.dispatched ++ [urlAt urls s.next], s.cloneErrors⟩
  | finish (s : PoolState) (w : Nat) (u : String) (err : Option String)
      (hw : s.workers.get? w = some (WorkerState.cloning u)) :
      PoolStep urls (PoolLabel.finish w err) s
        ⟨s.next, s.closed, s.workers.set w WorkerState.waiting, s.ctxDone, s.dispatched,
          match err with
          | none => s.cloneErrors
          | some _ => s.cloneErrors ++ [u]⟩
  | cancel (s : PoolState) (h : s.ctxDone = false) :
      PoolStep urls PoolLabel.cancel s
        ⟨s.next, s.closed, s.workers, true, s.dispatched, s.cloneErrors⟩
  | exitCtx (s : PoolState) (w : Nat)
      (hw : s.workers.get? w = some WorkerState.waiting) (hd : s.ctxDone = true) :
      PoolStep urls (PoolLabel.exitCtx w) s
        ⟨s.next, s.closed, s.workers.set w WorkerState.exited, s.ctxDone, s.dispatched,
          s.cloneErrors⟩
  | closeChan (s : PoolState) (h : s.next = urls.length) (hc : s.closed = false) :
      PoolStep urls PoolLabel.closeChan s
        ⟨s.next, true, s.workers, s.ctxDone, s.dispatched, s.cloneErrors⟩
  | exitClosed (s : PoolState) (w : Nat)
      (hw : s.workers.get? w = some WorkerState.waiting) (hc : s.closed = true) :
      PoolStep urls (PoolLabel.exitClosed w) s
        ⟨s.next, s.closed, s.workers.set w WorkerState.exited, s.ctxDone, s.dispatched,
          s.cloneErrors⟩

/-- Initial state of `cloneRepos` with `n` workers: nothing sent, channel
open, every worker at its `select`, deadline not fired. -/
def initPool (n : Nat) : PoolState :=
  ⟨0, false, List.replicate n WorkerState.waiting, false, [], []⟩

/-- States of `cloneRepos` reachable from the initial state. -/
inductive PoolReach (urls : List String) (n : Nat) : PoolState → Prop where
  | init : PoolReach urls n (initPool n)
  | step (l : PoolLabel) (s t : PoolState) :
      PoolReach urls n s → PoolStep urls l s t → PoolReach urls n t

/-- Executable one-step interpreter for `PoolStep`, used to build concrete
reachable schedules. -/
def poolStepFn (urls : List String) (l : PoolLabel) (s : PoolState) : Option PoolState :=
  match l with
  | PoolLabel.dispatch w =>
    if s.workers.get? w = some WorkerState.waiting ∧ s.closed = false ∧
        s.next < urls.length then
      some ⟨s.next + 1, s.closed, s.workers.set w (WorkerState.cloning (urlAt urls s.next)),
        s.ctxDone, s.dispatched ++ [urlAt urls s.next], s.cloneErrors⟩
    else none
  | PoolLabel.finish w err =>
    match s.workers.get? w with
    | some (WorkerState.cloning u) =>
      some ⟨s.next, s.closed, s.workers.set w WorkerState.waiting, s.ctxDone, s.dispatched,
        match err with
        | none => s.cloneErrors
        | some _ => s.cloneErrors ++ [u]⟩
    | _ => none
  | PoolLabel.cancel =>
    if s.ctxDone = false then
      some ⟨s.next, s.closed, s.workers, true, s.dispatched, s.cloneErrors⟩
    else none
  | PoolLabel.exitCtx w =>
    if s.workers.get? w = some WorkerState.waiting ∧ s.ctxDone = true then
      some ⟨s.next, s.closed, s.workers.set w WorkerState.exited, s.ctxDone, s.dispatched,
        s.cloneErrors⟩
    else none
  | PoolLabel.closeChan =>
    if s.next = urls.length ∧ s.closed = false then
      some ⟨s.next, true, s.workers, s.ctxDone, s.dispatched, s.cloneErrors⟩
    else none
  | PoolLabel.exitClosed w =>
    if s.workers.get? w = some WorkerState.waiting ∧ s.closed = true then
      some ⟨s.next, s.closed, s.workers.set w WorkerState.exited, s.ctxDone, s.dispatched,
        s.cloneErrors⟩
    else none

theorem poolStepFn_sound (urls : List String) (l : PoolLabel) (s t : PoolState)
    (h : poolStepFn urls l s = some t) : PoolStep urls l s t := by
  cases l with
  | dispatch w =>
    rw [poolStepFn] at h
    split at h
    · rename_i hcond
      cases h
      exact PoolStep.dispatch s w hcond.1 hcond.2.1 hcond.2.2
    · cases h
  | finish w err =>
    rw [poolStepFn] at h
    split at h
    · rename_i u hw
      cases h
      exact PoolStep.finish s w u err hw
    · cases h
  | cancel =>
    rw [poolStepFn] at h
    split at h
    · rename_i hcond
      cases h
      exact PoolStep.cancel s hcond
    · cases h
  | exitCtx w =>
    rw [poolStepFn] at h
    split at h
    · rename_i hcond
      cases h
      exact PoolStep.exitCtx s w hcond.1 hcond.2
    · cases h
  | closeChan =>
    rw [poolStepFn] at h
    split at h
    · rename_i hcond
      cases h
      exact PoolStep.closeChan s hcond.1 hcond.2
    · cases h
  | exitClosed w =>
    rw [poolStepFn] at h
    split at h
    · rename_i hcond
      cases h
      exact PoolStep.exitClosed s w hcond.1 hcond.2
    · cases h

/-- Run a whole schedule of labels from a state. -/
def runPool (urls : List String) : List PoolLabel → PoolState → Option PoolState
  | [], s => some s
  | l :: ls, s =>
    match poolStepFn urls l s with
    | some t => runPool urls ls t
    | none => none

theorem runPool_reach (urls : List String) (n : Nat) (ls : List PoolLabel) :
    ∀ s t, PoolReach urls n s → runPool urls ls s = some t → PoolReach urls n t := by
  induction ls with
  | nil =>
    intro s t hs h
    rw [runPool] at h
    cases h
    exact hs
  | cons l ls ih =>
    intro s t hs h
    rw [runPool] at h
    cases hstep : poolStepFn urls l s with
    | none => rw [hstep] at h; cases h
    | some s' =>
      rw [hstep] at h
      exact ih s' t (PoolReach.step l s s' hs (poolStepFn_sound urls l s s' hstep)) h

theorem replicate_get?_ne {α : Type} (a b : α) (hab : b ≠ a) (n : Nat) :
    ∀ w, (List.replicate n a).get? w ≠ some b := by
  induction n with
  | zero => intro w; cases w <;> simp [List.replicate]
  | succ n ih =>
    intro w
    cases w with
    | zero =>
      simp [List.replicate]
      exact fun hcontra => hab hcontra.symm
    | succ w => simpa [List.replicate] using ih w

theorem pool_inv (urls : List String) (n : Nat) :
    ∀ s, PoolReach urls n s →
      s.dispatched = urls.take s.next ∧ s.next ≤ urls.length ∧
      (s.closed = true → s.next = urls.length) := by
  intro s hreach
  induction hreach with
  | init => simp [initPool]
  | step l s t _ hstep ih =>
    cases hstep with
    | dispatch s w hw hc hn =>
      refine ⟨?_, by show s.next + 1 ≤ urls.length; omega, by simp [hc]⟩
      have hget : urls[s.next]? = some urls[s.next] := List.getElem?_eq_getElem hn
      have hurl : urlAt urls s.next = urls[s.next] := by
        rw [urlAt, List.getD_eq_getElem?_getD, hget]
        rfl
      have htake : urls.take (s.next + 1) = urls.take s.next ++ [urlAt urls s.next] := by
        rw [List.take_succ, hget, hurl]
        rfl
      simp only [htake, ih.1]
    | finish s w u err hw => exact ih
    | cancel s h => exact ih
    | exitCtx s w hw hd => exact ih
    | closeChan s h hc => exact ⟨ih.1, ih.2.1, fun _ => h⟩
    | exitClosed s w hw hc => exact ih

/-- C5: for every listing and every pool size `N ≥ 1`, in every run of
`cloneRepos` in which the producer finished feeding the channel (reached
`close(work)`), the sequence of work items dispatched to workers is exactly
the listing's clone-URL sequence: each URL dispatched exactly once, in
listing order, with no duplicates or omissions — regardless of how many of
the clone attempts failed (the step relation places no constraint on the
`finish` outcomes). -/
theorem dispatch_equals_listing (urls : List String) (n : Nat) (hn : 1 ≤ n)
    (s : PoolState) (hreach : PoolReach urls n s) (hclosed : s.closed = true) :
    s.dispatched = urls := by
  have hinv := pool_inv urls n s hreach
  rw [hinv.1, hinv.2.2 hclosed, List.take_length]

/-- Two-URL listing fixture. -/
def urls2 : List String := ["u1", "u2"]

/-- Witness for C5: a complete one-worker schedule over two URLs dispatches
exactly the listing, in order. -/
theorem dispatch_equals_listing_witness :
    (PoolState.mk 2 true [WorkerState.cloning "u2"] false ["u1", "u2"] []).dispatched =
      urls2 :=
  dispatch_equals_listing urls2 1 (by decide)
    (PoolState.mk 2 true [WorkerState.cloning "u2"] false ["u1", "u2"] [])
    (runPool_reach urls2 1
      [PoolLabel.dispatch 0, PoolLabel.finish 0 none, PoolLabel.dispatch 0,
        PoolLabel.closeChan]
      (initPool 1)
      (PoolState.mk 2 true [WorkerState.cloning "u2"] false ["u1", "u2"] [])
      PoolReach.init (by decide))
    rfl

/-- C7: when a worker's clone attempt fails, the failure is logged with the
offending URL, the worker returns to its `select` (it does not exit), the
producer state, channel state, deadline flag, dispatch log and every other
worker are untouched, and the resulting state differs from the state after
a successful clone of the same item only in the error log — so one item's
failure never stops the worker or the pool, nor prevents any other item's
clone from being attempted. -/
theorem clone_failure_isolated (urls : List String) (n : Nat) (s t : PoolState)
    (w : Nat) (u e : String) (hreach : PoolReach urls n s)
    (hw : s.workers.get? w = some (WorkerState.cloning u))
    (hstep : PoolStep urls (PoolLabel.finish w (some e)) s t) :
    t.cloneErrors = s.cloneErrors ++ [u] ∧
    t.workers.get? w = some WorkerState.waiting ∧
    t.next = s.next ∧ t.closed = s.closed ∧ t.dispatched = s.dispatched ∧
    t.ctxDone = s.ctxDone ∧
    (∀ w', w' ≠ w → t.workers.get? w' = s.workers.get? w') ∧
    (∀ t', PoolStep urls (PoolLabel.finish w none) s t' →
      t'.next = t.next ∧ t'.closed = t.closed ∧ t'.workers = t.workers ∧
      t'.dispatched = t.dispatched ∧ t'.ctxDone = t.ctxDone) := by
  cases hstep with
  | finish s w u' err hw' =>
    have hu : u' = u := by
      rw [hw'] at hw
      simpa using hw
    subst hu
    have hlt : w < s.workers.length := by
      cases hlen : s.workers.get? w with
      | none => rw [hlen] at hw'; cases hw'
      | some x => exact (List.get?_eq_some.mp hlen).1
    refine ⟨rfl, ?_, rfl, rfl, rfl, rfl, ?_, ?_⟩
    · simp [List.get?_set_eq, List.get?_eq_none, hlt]
    · intro w' hne
      exact List.get?_set_ne _ _ (Ne.symm hne)
    · intro t' ht'
      cases ht' with
      | finish s w u'' err' hw'' => exact ⟨rfl, rfl, rfl, rfl, rfl⟩

/-- Witness for C7: in a reachable one-worker state cloning `u1`, a failed
clone logs `u1` and leaves the worker back at its `select`. -/
theorem clone_failure_isolated_witness :
    (PoolState.mk 1 false [WorkerState.waiting] false ["u1"] ["u1"]).cloneErrors =
      (PoolState.mk 1 false [WorkerState.cloning "u1"] false ["u1"] []).cloneErrors ++
        ["u1"] ∧
    (PoolState.mk 1 false [WorkerState.waiting] false ["u1"] ["u1"]).workers.get? 0 =
      some WorkerState.waiting := by
  have h := clone_failure_isolated urls2 1
    (PoolState.mk 1 false [WorkerState.cloning "u1"] false ["u1"] [])
    (PoolState.mk 1 false [WorkerState.waiting] false ["u1"] ["u1"])
    0 "u1" "boom"
    (runPool_reach urls2 1 [PoolLabel.dispatch 0] (initPool 1)
      (PoolState.mk 1 false [WorkerState.cloning "u1"] false ["u1"] [])
      PoolReach.init (by decide))
    rfl
    (poolStepFn_sound urls2 (PoolLabel.finish 0 (some "boom"))
      (PoolState.mk 1 false [WorkerState.cloning "u1"] false ["u1"] [])
      (PoolState.mk 1 false [WorkerState.waiting] false ["u1"] ["u1"]) (by decide))
  exact ⟨h.1, h.2.1⟩

/-- Ten-URL listing fixture (the spec's "3 of 10" deadline scenario). -/
def urls10 : List String :=
  ["u1", "u2", "u3", "u4", "u5", "u6", "u7", "u8", "u9", "u10"]

/-- State of `cloneRepos` over `urls10` after the deadline fires with 3 of
the 10 items dispatched: the three in-flight clones were cancelled (logged)
and all five workers took the `ctx.Done()` branch and returned, while the
producer still holds item 4 and the channel was never closed. -/
def stuckState : PoolState :=
  ⟨3, false, List.replicate 5 WorkerState.exited, true, ["u1", "u2", "u3"],
    ["u1", "u2", "u3"]⟩

/-- Schedule reaching `stuckState`: dispatch three items, deadline fires,
the three cancelled clones return with errors, every worker exits. -/
def deadlineSchedule : List PoolLabel :=
  [PoolLabel.dispatch 0, PoolLabel.dispatch 1, PoolLabel.dispatch 2,
    PoolLabel.cancel,
    PoolLabel.finish 0 (some "context deadline exceeded"),
    PoolLabel.finish 1 (some "context deadline exceeded"),
    PoolLabel.finish 2 (some "context deadline exceeded"),
    PoolLabel.exitCtx 0, PoolLabel.exitCtx 1, PoolLabel.exitCtx 2,
    PoolLabel.exitCtx 3, PoolLabel.exitCtx 4]

/-- C1: the claim says that when the deadline fires after 3 of 10 dispatched
clones have started, the run still packages the partial result and exits
with a deadline indication, never blocking forever.  The code violates
this: the producer's `work <- repo.CloneUrl` send has no `ctx.Done()` case,
so the run can reach a state — exhibited here — where the deadline has
fired, all five workers have returned, 3 of the 10 items were dispatched,
the channel was never closed, and NO step of the system is possible any
more: the producer's send blocks forever, `cloneRepos` never returns,
`wg.Wait()` and the packaging code after it are never reached. -/
theorem pool_blocks_forever_after_deadline :
    PoolReach urls10 cloningWorkers stuckState ∧
    stuckState.dispatched.length = 3 ∧ urls10.length = 10 ∧
    stuckState.closed = false ∧
    ∀ (l : PoolLabel) (t : PoolState), ¬ PoolStep urls10 l stuckState t := by
  refine ⟨?_, by decide, by decide, by decide, ?_⟩
  · exact runPool_reach urls10 cloningWorkers deadlineSchedule (initPool cloningWorkers)
      stuckState PoolReach.init (by decide)
  · intro l t h
    cases h with
    | dispatch s w hw hc hn =>
      exact replicate_get?_ne WorkerState.exited WorkerState.waiting (by decide) 5 w hw
    | finish s w u err hw =>
      exact replicate_get?_ne WorkerState.exited (WorkerState.cloning u)
        (fun hcontra => WorkerState.noConfusion hcontra) 5 w hw
    | cancel s h => exact absurd h (by decide)
    | exitCtx s w hw hd =>
      exact replicate_get?_ne WorkerState.exited WorkerState.waiting (by decide) 5 w hw
    | closeChan s h hc => exact absurd h (by decide)
    | exitClosed s w hw hc =>
      exact replicate_get?_ne WorkerState.exited WorkerState.waiting (by decide) 5 w hw

/-- State of `main`'s join barrier (`sync.WaitGroup`): `started` records
that `storeReposResponses` and `cloneRepos` have performed their `wg.Add`
calls and spawned their goroutines (all of which happens in `main` before
`wg.Wait()` is reached); `counter` is the wait-group counter; break-down of
the `n + 1` children: `persisterDone` for the metadata persister goroutine
and `workerDone` (one flag per clone worker) for the pool; `waited` records
that `wg.Wait()` returned; `packaged` that `main` went on to read the
working directory (`fillZipWriter`). -/
structure MainState where
  started : Bool
  counter : Nat
  persisterDone : Bool
  workerDone : List Bool
  waited : Bool
  packaged : Bool
  deriving DecidableEq

/-- Scheduler events of `main`'s barrier. -/
inductive MainLabel where
  | start
  | persisterFinish
  | workerFinish (w : Nat)
  | waitReturn
  | packageStart
  deriving DecidableEq

/-- Initial barrier state: nothing spawned, counter zero. -/
def initMain (n : Nat) : MainState :=
  ⟨false, 0, false, List.replicate n false, false, false⟩

/-- Barrier semantics of `main` with `n` clone workers.
* `start`: `main` runs `storeReposResponses` (one `wg.Add(1)` + spawn) and
  `cloneRepos` (`n` times `wg.Add(1)` + spawn), raising the counter to
  `n + 1`; every `Add` happens in `main` before `wg.Wait()`.
* `persisterFinish` / `workerFinish w`: a child goroutine returns and its
  deferred `wg.Done()` decrements the counter.
* `waitReturn`: `wg.Wait()` returns, which the wait-group permits exactly
  when the counter is zero.
* `packageStart`: `main`, sequentially after `wg.Wait()`, starts reading
  the working directory to fill the zip archive. -/
inductive MainStep (n : Nat) : MainLabel → MainState → MainState → Prop where
  | start (s : MainState) (h : s.started = false) :
      MainStep n MainLabel.start s
        ⟨true, n + 1, s.persisterDone, s.workerDone, s.waited, s.packaged⟩
  | persisterFinish (s : MainState) (hs : s.started = true)
      (h : s.persisterDone = false) :
      MainStep n MainLabel.persisterFinish s
        ⟨s.started, s.counter - 1, true, s.workerDone, s.waited, s.packaged⟩
  | workerFinish (s : MainState) (w : Nat) (hs : s.started = true)
      (hw : s.workerDone.get? w = some false) :
      MainStep n (MainLabel.workerFinish w) s
        ⟨s.started, s.counter - 1, s.persisterDone, s.workerDone.set w true,
          s.waited, s.packaged⟩
  | waitReturn (s : MainState) (hs : s.started = true) (h : s.counter = 0)
      (hw : s.waited = false) :
      MainStep n MainLabel.waitReturn s
        ⟨s.started, s.counter, s.persisterDone, s.workerDone, true, s.packaged⟩
  | packageStart (s : MainState) (h : s.waited = true) (hp : s.packaged = false) :
      MainStep n MainLabel.packageStart s
        ⟨s.started, s.counter, s.persisterDone, s.workerDone, s.waited, true⟩

/-- Barrier states reachable in a run of `main`. -/
inductive MainReach (n : Nat) : MainState → Prop where
  | init : MainReach n (initMain n)
  | step (l : MainLabel) (s t : MainState) :
      MainReach n s → MainStep n l s t → MainReach n t

/-- Executable one-step interpreter for `MainStep`. -/
def mainStepFn (n : Nat) (l : MainLabel) (s : MainState) : Option MainState :=
  match l with
  | MainLabel.start =>
    if s.started = false then
      some ⟨true, n + 1, s.persisterDone, s.workerDone, s.waited, s.packaged⟩
    else none
  | MainLabel.persisterFinish =>
    if s.started = true ∧ s.persisterDone = false then
      some ⟨s.started, s.counter - 1, true, s.workerDone, s.waited, s.packaged⟩
    else none
  | MainLabel.workerFinish w =>
    if s.started = true ∧ s.workerDone.get? w = some false then
      some ⟨s.started, s.counter - 1, s.persisterDone, s.workerDone.set w true,
        s.waited, s.packaged⟩
    else none
  | MainLabel.waitReturn =>
    if s.started = true ∧ s.counter = 0 ∧ s.waited = false then
      some ⟨s.started, s.counter, s.persisterDone, s.workerDone, true, s.packaged⟩
    else none
  | MainLabel.packageStart =>
    if s.waited = true ∧ s.packaged = false then
      some ⟨s.started, s.counter, s.persisterDone, s.workerDone, s.waited, true⟩
    else none

theorem mainStepFn_sound (n : Nat) (l : MainLabel) (s t : MainState)
    (h : mainStepFn n l s = some t) : MainStep n l s t := by
  cases l with
  | start =>
    rw [mainStepFn] at h
    split at h
    · rename_i hc; cases h; exact MainStep.start s hc
    · cases h
  | persisterFinish =>
    rw [mainStepFn] at h
    split at h
    · rename_i hc; cases h; exact MainStep.persisterFinish s hc.1 hc.2
    · cases h
  | workerFinish w =>
    rw [mainStepFn] at h
    split at h
    · rename_i hc; cases h; exact MainStep.workerFinish s w hc.1 hc.2
    · cases h
  | waitReturn =>
    rw [mainStepFn] at h
    split at h
    · rename_i hc; cases h; exact MainStep.waitReturn s hc.1 hc.2.1 hc.2.2
    · cases h
  | packageStart =>
    rw [mainStepFn] at h
    split at h
    · rename_i hc; cases h; exact MainStep.packageStart s hc.1 hc.2
    · cases h

/-- Run a schedule of barrier events. -/
def runMain (n : Nat) : List MainLabel → MainState → Option MainState
  | [], s => some s
  | l :: ls, s =>
    match mainStepFn n l s with
    | some t => runMain n ls t
    | none => none

theorem runMain_reach (n : Nat) (ls : List MainLabel) :
    ∀ s t, MainReach n s → runMain n ls s = some t → MainReach n t := by
  induction ls with
  | nil =>
    intro s t hs h
    rw [runMain] at h
    cases h
    exact hs
  | cons l ls ih =>
    intro s t hs h
    rw [runMain] at h
    cases hstep : mainStepFn n l s with
    | none => rw [hstep] at h; cases h
    | some s' =>
      rw [hstep] at h
      exact ih s' t (MainReach.step l s s' hs (mainStepFn_sound n l s s' hstep)) h

theorem count_true_set (l : List Bool) :
    ∀ w, l.get? w = some false → (l.set w true).count true = l.count true + 1 := by
  induction l with
  | nil => intro w h; cases w <;> cases h
  | cons b l ih =>
    intro w h
    cases w with
    | zero =>
      cases h
      simp [List.count_cons]
    | succ w =>
      have := ih w (by simpa using h)
      simp only [List.set, List.count_cons]
      rw [this]
      split <;> omega

/-- Invariant tying the wait-group counter to the children still running. -/
def MainInv (n : Nat) (s : MainState) : Prop :=
  s.workerDone.length = n ∧
  (s.started = false → s = initMain n) ∧
  (s.started = true →
    s.counter + (if s.persisterDone then 1 else 0) + s.workerDone.count true = n + 1) ∧
  (s.waited = true →
    s.started = true ∧ s.persisterDone = true ∧ ∀ b ∈ s.workerDone, b = true) ∧
  (s.packaged = true → s.waited = true)

theorem main_inv (n : Nat) : ∀ s, MainReach n s → MainInv n s := by
  intro s hreach
  induction hreach with
  | init =>
    refine ⟨by simp [initMain], fun _ => rfl, ?_, ?_, ?_⟩ <;> simp [initMain]
  | step l s t _ hstep ih =>
    obtain ⟨hlen, hinit, hcnt, hwait, hpack⟩ := ih
    cases hstep with
    | start s h =>
      have hs := hinit h
      subst hs
      refine ⟨by simp [initMain], by simp, ?_, ?_, ?_⟩ <;>
        simp [initMain, List.count_replicate]
    | persisterFinish s hs h =>
      have hc := hcnt hs
      rw [h] at hc
      simp at hc
      have hcount : s.workerDone.count true ≤ n := hlen ▸ List.count_le_length true s.workerDone
      refine ⟨hlen, ?_, ?_, ?_, hpack⟩
      · intro hcontra
        rw [hcontra] at hs
        exact Bool.noConfusion hs
      · intro _
        simp
        omega
      · intro hw
        exact absurd (hwait hw).2.1 (by simp [h])
    | workerFinish s w hs hw =>
      have hc := hcnt hs
      have hset := count_true_set s.workerDone w hw
      have hsetlen : (s.workerDone.set w true).length = n := by
        rw [List.length_set]; exact hlen
      have hcount : (s.workerDone.set w true).count true ≤ n :=
        hsetlen ▸ List.count_le_length true (s.workerDone.set w true)
      refine ⟨hsetlen, ?_, ?_, ?_, hpack⟩
      · intro hcontra
        rw [hcontra] at hs
        exact Bool.noConfusion hs
      · intro _
        show s.counter - 1 + (if s.persisterDone = true then 1 else 0) +
            (s.workerDone.set w true).count true = n + 1
        rw [hset] at hcount ⊢
        cases hpd : s.persisterDone <;> simp [hpd] at hc ⊢ <;> omega
      · intro hwaited
        have hfalse : false ∈ s.workerDone := List.get?_mem hw
        have := (hwait hwaited).2.2 false hfalse
        cases this
    | waitReturn s hs h hw =>
      have hc := hcnt hs
      rw [h] at hc
      have hcount : s.workerDone.count true ≤ n := hlen ▸ List.count_le_length true s.workerDone
      have hpd : s.persisterDone = true := by
        cases hpd : s.persisterDone with
        | false => rw [hpd] at hc; simp at hc; omega
        | true => rfl
      rw [hpd] at hc
      simp only [if_true] at hc
      have hcn : s.workerDone.count true = n := by omega
      have hall : ∀ b ∈ s.workerDone, b = true := by
        intro b hb
        have := List.count_eq_length.mp (by rw [hcn, hlen]) b hb
        exact this.symm
      refine ⟨hlen, ?_, fun _ => by rw [h, hpd]; simpa using hc, fun _ => ⟨hs, hpd, hall⟩,
        fun hp => rfl⟩
      intro hcontra
      rw [hcontra] at hs
      exact Bool.noConfusion hs
    | packageStart s h hp =>
      exact ⟨hlen, by simp [hwait h |>.1], hcnt, fun _ => hwait h, fun _ => h⟩

/-- C8: in every run of `main`, when packaging of the working directory has
started (`fillZipWriter` reached after `wg.Wait()` returned), the metadata
persister has finished and every one of the `n` clone-pool workers has
finished — the packager only ever observes a quiescent tree. -/
theorem packaging_starts_after_all_writers (n : Nat) (s : MainState)
    (hreach : MainReach n s) (hpk : s.packaged = true) :
    s.persisterDone = true ∧ s.workerDone = List.replicate n true := by
  obtain ⟨hlen, _, _, hwait, hpack⟩ := main_inv n s hreach
  obtain ⟨_, hpd, hall⟩ := hwait (hpack hpk)
  refine ⟨hpd, ?_⟩
  rw [List.eq_replicate]
  exact ⟨hlen, fun b hb => hall b hb⟩

/-- Witness for C8 with the program's five workers (`cloningWorkers`): a
full schedule reaching a packaging state in which the persister and all
five workers are recorded as finished. -/
theorem packaging_starts_after_all_writers_witness :
    (MainState.mk true 0 true (List.replicate 5 true) true true).persisterDone = true ∧
    (MainState.mk true 0 true (List.replicate 5 true) true true).workerDone =
      List.replicate cloningWorkers true :=
  packaging_starts_after_all_writers cloningWorkers
    (MainState.mk true 0 true (List.replicate 5 true) true true)
    (runMain_reach cloningWorkers
      [MainLabel.start, MainLabel.persisterFinish, MainLabel.workerFinish 0,
        MainLabel.workerFinish 1, MainLabel.workerFinish 2, MainLabel.workerFinish 3,
        MainLabel.workerFinish 4, MainLabel.waitReturn, MainLabel.packageStart]
      (initMain cloningWorkers)
      (MainState.mk true 0 true (List.replicate 5 true) true true)
      MainReach.init (by decide))
    rfl

/-- Events of `main`'s packaging epilogue (lines after `wg.Wait()`):
opening the zip file, creating the zip writer, the `fillZipWriter` call
(with its success flag), `os.RemoveAll` of the working directory, the
final `Done in ...` report, the deferred `w.Close()` (with whether that
finalisation failed — its return value is discarded by `defer`), the
deferred `zipFile.Close()`, and a `panic`. -/
inductive PackEvent where
  | openZipFile
  | newZipWriter
  | fillZip (ok : Bool)
  | removeWorkdir
  | reportDone
  | closeZipWriter (fails : Bool)
  | closeZipFile
  | panicked (msg : String)
  deriving DecidableEq

/-- Whether an event is a panic. -/
def isPanicEv : PackEvent → Bool
  | PackEvent.panicked _ => true
  | _ => false

/-- Event trace of `main`'s packaging epilogue, as written in the source:
open the zip file (deferring its close), create the zip writer (deferring
`w.Close()`, whose error is discarded), call `fillZipWriter`; on failure
panic (running the deferred closes during unwinding), otherwise remove the
working directory, print the `Done` report, and only then — at function
exit — run the deferred `w.Close()` and `zipFile.Close()`.  `fillOk` is
whether `fillZipWriter` succeeded, `closeFails` whether the deferred
`w.Close()` finalisation fails. -/
def mainPackaging (fillOk closeFails : Bool) : List PackEvent :=
  [PackEvent.openZipFile, PackEvent.newZipWriter, PackEvent.fillZip fillOk] ++
    (if fillOk then
      [PackEvent.removeWorkdir, PackEvent.reportDone,
        PackEvent.closeZipWriter closeFails, PackEvent.closeZipFile]
    else
      [PackEvent.closeZipWriter closeFails, PackEvent.closeZipFile,
        PackEvent.panicked "could not fill zip writer"])

/-- Index of the first occurrence of an event in a trace. -/
def evIdx (tr : List PackEvent) (e : PackEvent) : Option Nat :=
  tr.findIdx? (fun x => decide (x = e))

/-- `a` occurs in the trace strictly before `b`. -/
def occursBefore (tr : List PackEvent) (a b : PackEvent) : Bool :=
  match evIdx tr a, evIdx tr b with
  | some i, some j => decide (i < j)
  | _, _ => false

/-- C4 counterexample: the claim says the archive container is fully
written and closed (finalised, any finalise failure fatal) before the run
reports completion, on every successful run.  In the successful run in
which the deferred `w.Close()` fails, the `Done` report occurs strictly
before the writer is closed (the close is deferred to function exit), and
no panic occurs even though finalisation failed — its error is discarded —
so the claim is false on this run. -/
theorem report_precedes_archive_finalisation :
    occursBefore (mainPackaging true true) PackEvent.reportDone
      (PackEvent.closeZipWriter true) = true ∧
    (mainPackaging true true).all (fun e => !isPanicEv e) = true := by
  decide

/-- C4 amended: on every successful run the archive payload is fully
written (`fillZipWriter` succeeds) before the working directory is removed,
and the directory is removed before the completion report; if packaging
fails, cleanup is skipped (the working directory is never removed) and the
run panics; but the zip writer is finalised only by a deferred `w.Close()`
AFTER the completion report, and a failure of that finalisation is
discarded rather than fatal. -/
theorem packaging_order_amended (fillOk closeFails : Bool) :
    (fillOk = true →
      occursBefore (mainPackaging fillOk closeFails) (PackEvent.fillZip true)
        PackEvent.removeWorkdir = true ∧
      occursBefore (mainPackaging fillOk closeFails) PackEvent.removeWorkdir
        PackEvent.reportDone = true ∧
      occursBefore (mainPackaging fillOk closeFails) PackEvent.reportDone
        (PackEvent.closeZipWriter closeFails) = true ∧
      (mainPackaging fillOk closeFails).all (fun e => !isPanicEv e) = true) ∧
    (fillOk = false →
      PackEvent.removeWorkdir ∉ mainPackaging fillOk closeFails ∧
      PackEvent.reportDone ∉ mainPackaging fillOk closeFails ∧
      PackEvent.panicked "could not fill zip writer" ∈ mainPackaging fillOk closeFails) := by
  revert fillOk closeFails
  decide

/-- Witness for the amended C4, exercising both branches: the successful
run with a failing deferred close, and the failing-fill run. -/
theorem packaging_order_amended_witness :
    (occursBefore (mainPackaging true true) (PackEvent.fillZip true)
        PackEvent.removeWorkdir = true ∧
      occursBefore (mainPackaging true true) PackEvent.removeWorkdir
        PackEvent.reportDone = true) ∧
    (PackEvent.removeWorkdir ∉ mainPackaging false false ∧
      PackEvent.panicked "could not fill zip writer" ∈ mainPackaging false false) :=
  ⟨⟨((packaging_order_amended true true).1 rfl).1,
    ((packaging_order_amended true true).1 rfl).2.1⟩,
    ⟨((packaging_order_amended false false).2 rfl).1,
      ((packaging_order_amended false false).2 rfl).2.2⟩⟩

end ArchiveOrg
